import Mathlib

/-!
Shallow embedding of `scripts/generate_benchmark_charts.py`.

The script scans a Criterion result tree
(`target/criterion/<group>/<impl>[/<size>]/new/estimates.json`),
assembles an in-memory table per benchmark group, and derives
overhead percentages, speedup factors and a sorted summary table.

We embed:
* the JSON documents the scanner loads (`Json`), Python truthiness
  (`truthy`) and `dict.get` with a default (`jget`),
* the state of a leaf's `new/estimates.json` file (`EstFile`),
* directory entries as seen by `Path.iterdir` (`SubEntry`, `Entry`),
* `load_estimates` / `extract_mean_time_ns`,
* the parameterized (insert) and scalar (get/bulk/secondary_query)
  scan loops of `parse_cross_store_benchmarks`,
* the derivation logic of `generate_overhead_percentage_chart`
  (`calc_overhead` plus the size-100 insert panel),
  `generate_speedup_comparison` and
  `generate_absolute_performance_table` (insert section).

Python exceptions are modelled with `Except String`; a raised
exception is `.error` carrying the exception class name.
Python `dict` is modelled as an association list with
insert-or-overwrite (`dinsert`), preserving insertion order exactly
as CPython dicts do.  Times are `ℚ` (the script's arithmetic on the
concrete inputs of the spec is exact).
-/

/-- JSON values as produced by `json.load`. -/
inductive Json where
  | jnull : Json
  | jnum : ℚ → Json
  | jstr : String → Json
  | jobj : List (String × Json) → Json

/-- First-match association-list lookup, modelling Python `dict`
membership/indexing on a dict represented as an ordered assoc list
with unique keys. -/
def alookup {κ α : Type} [DecidableEq κ] : List (κ × α) → κ → Option α
  | [], _ => none
  | (k2, v) :: rest, k => if k2 = k then some v else alookup rest k

/-- Python `d[k] = v`: overwrite in place if the key exists (keeping
its position, as CPython dicts do), else append. -/
def dinsert {κ α : Type} [DecidableEq κ] : List (κ × α) → κ → α → List (κ × α)
  | [], k, v => [(k, v)]
  | (k2, v2) :: rest, k, v =>
      if k2 = k then (k2, v) :: rest else (k2, v2) :: dinsert rest k v

/-- Python truthiness of a JSON value (`if estimates:` / `if not estimates:`). -/
def truthy : Json → Bool
  | .jnull => false
  | .jnum q => decide (q ≠ 0)
  | .jstr s => decide (s ≠ "")
  | .jobj fs => !fs.isEmpty

/-- Python `obj.get(key, default)`: succeeds on a dict, raises
`AttributeError` on any non-dict value. -/
def jget (j : Json) (key : String) (dflt : Json) : Except String Json :=
  match j with
  | .jobj fs => .ok ((alookup fs key).getD dflt)
  | _ => .error "AttributeError"

/-- The state of a benchmark leaf's `new/estimates.json`:
absent, present but not decodable as JSON, or decodable as `j`. -/
inductive EstFile where
  | absent : EstFile
  | malformed : EstFile
  | parsed : Json → EstFile

/-- A sub-entry of an implementation directory (a candidate size
directory), as seen by `iterdir`. -/
structure SubEntry where
  name : String
  isDir : Bool
  leaf : EstFile

/-- An entry of a group directory (a candidate implementation
directory): its own estimate leaf (used by the scalar-group scans)
and its sub-entries (used by the parameterized insert scan). -/
structure Entry where
  name : String
  isDir : Bool
  leaf : EstFile
  subs : List SubEntry

/-- `load_estimates` (lines 52–59): `None` when the file does not
exist, `json.load` otherwise; an undecodable file raises
`json.JSONDecodeError`. -/
def load_estimates : EstFile → Except String (Option Json)
  | .absent => .ok none
  | .malformed => .error "JSONDecodeError"
  | .parsed j => .ok (some j)

/-- `extract_mean_time_ns` (lines 61–65): `None` for a falsy
document, otherwise `estimates.get('mean', {}).get('point_estimate', 0)`
(each `.get` raises `AttributeError` on a non-dict). -/
def extract_mean_time_ns (estimates : Option Json) : Except String (Option Json) :=
  match estimates with
  | none => .ok none
  | some j =>
      if truthy j then
        match jget j "mean" (.jobj []) with
        | .error e => .error e
        | .ok m =>
            match jget m "point_estimate" (.jnum 0) with
            | .error e => .error e
            | .ok p => .ok (some p)
      else .ok none

/-- The characters `int()` strips from both ends: code points with
the Unicode whitespace property (as tested by `Py_UNICODE_ISSPACE`). -/
def isPySpace (c : Char) : Bool :=
  let n := c.toNat
  decide ((9 ≤ n ∧ n ≤ 13) ∨ (28 ≤ n ∧ n ≤ 31) ∨ n = 32 ∨ n = 133 ∨ n = 160
    ∨ n = 0x1680 ∨ (0x2000 ≤ n ∧ n ≤ 0x200A) ∨ n = 0x2028 ∨ n = 0x2029
    ∨ n = 0x202F ∨ n = 0x205F ∨ n = 0x3000)

/-- Start code points of the runs of ten decimal digits (Unicode
category Nd); each run carries the digit values 0–9 in code-point
order, and Python `int()` accepts exactly these characters as
digits. -/
def ndBases : List Nat :=
  [0x30, 0x660, 0x6F0, 0x7C0, 0x966, 0x9E6, 0xA66, 0xAE6, 0xB66, 0xBE6,
   0xC66, 0xCE6, 0xD66, 0xDE6, 0xE50, 0xED0, 0xF20, 0x1040, 0x1090, 0x17E0,
   0x1810, 0x1946, 0x19D0, 0x1A80, 0x1A90, 0x1B50, 0x1BB0, 0x1C40, 0x1C50,
   0xA620, 0xA8D0, 0xA900, 0xA9D0, 0xA9F0, 0xAA50, 0xABF0, 0xFF10,
   0x104A0, 0x10D30, 0x11066, 0x110F0, 0x11136, 0x111D0, 0x112F0, 0x11450,
   0x114D0, 0x11650, 0x116C0, 0x11730, 0x118E0, 0x11950, 0x11C50, 0x11D50,
   0x11DA0, 0x16A60, 0x16AC0, 0x16B50, 0x1D7CE, 0x1D7D8, 0x1D7E2, 0x1D7EC,
   0x1D7F6, 0x1E140, 0x1E2F0, 0x1E4F0, 0x1E950, 0x1FBF0]

/-- The decimal value of a digit character (any Unicode Nd digit),
else `none`. -/
def digitVal (c : Char) : Option Nat :=
  match ndBases.find? (fun b => decide (b ≤ c.toNat ∧ c.toNat < b + 10)) with
  | some b => some (c.toNat - b)
  | none => none

/-- Continue a digit run: digits, with single underscores allowed
only between two digits (PEP 515). -/
def digitsUnderGo : List Char → Nat → Option Nat
  | [], acc => some acc
  | ['_'], _ => none
  | '_' :: c :: rest, acc =>
      match digitVal c with
      | some d => digitsUnderGo rest (acc * 10 + d)
      | none => none
  | c :: rest, acc =>
      match digitVal c with
      | some d => digitsUnderGo rest (acc * 10 + d)
      | none => none

/-- A nonempty digit run that starts with a digit and may group
digits with single underscores; `none` otherwise. -/
def digitsUnder : List Char → Option Nat
  | [] => none
  | c :: rest =>
      match digitVal c with
      | some d => digitsUnderGo rest d
      | none => none

/-- Strip Unicode whitespace from both ends. -/
def stripSpaces (cs : List Char) : List Char :=
  ((cs.dropWhile isPySpace).reverse.dropWhile isPySpace).reverse

/-- Python `int(s)` as applied to size directory names: optional
surrounding whitespace, an optional sign, then a nonempty run of
decimal digits (any Unicode Nd digit, with single underscores
allowed between digits); `none` models `int` raising `ValueError`. -/
def pyInt (s : String) : Option Int :=
  match stripSpaces s.data with
  | '-' :: rest => (digitsUnder rest).map (fun n => -(n : Int))
  | '+' :: rest => (digitsUnder rest).map (fun n => (n : Int))
  | cs => (digitsUnder cs).map (fun n => (n : Int))

/-- A scanned parameterized group: implementation → size → stored
estimate value. -/
abbrev JParamTable := List (String × List (Int × Json))

/-- A scanned scalar group: implementation → stored estimate value. -/
abbrev JScalarTable := List (String × Json)

/-- One iteration of the inner size loop of the insert scan
(lines 86–96).  The whole body runs inside `try: ... except
ValueError: continue`; both `int(...)` and `json.load` (whose
`JSONDecodeError` subclasses `ValueError`) are therefore silently
skipped, while `AttributeError` from `extract_mean_time_ns`
propagates. -/
def scanSizeStep (acc : List (Int × Json)) (s : SubEntry) :
    Except String (List (Int × Json)) :=
  if s.isDir then
    match pyInt s.name with
    | none => .ok acc
    | some size =>
        match load_estimates s.leaf with
        | .error _ => .ok acc
        | .ok none => .ok acc
        | .ok (some j) =>
            if truthy j then
              match extract_mean_time_ns (some j) with
              | .error e => .error e
              | .ok v => .ok (dinsert acc size (v.getD .jnull))
            else .ok acc
  else .ok acc

/-- The inner size loop of the insert scan, starting from the
implementation's current size dict. -/
def scanSizesFrom (acc : List (Int × Json)) (subs : List SubEntry) :
    Except String (List (Int × Json)) :=
  subs.foldlM scanSizeStep acc

/-- One iteration of the outer implementation loop of the insert
scan (lines 79–96).  Note: no `'report'` exclusion here, unlike the
scalar-group scans. -/
def scanInsertStep (acc : JParamTable) (e : Entry) : Except String JParamTable :=
  if e.isDir then
    let acc2 := if (alookup acc e.name).isSome then acc else acc ++ [(e.name, [])]
    match scanSizesFrom ((alookup acc2 e.name).getD []) e.subs with
    | .error err => .error err
    | .ok sizes => .ok (dinsert acc2 e.name sizes)
  else .ok acc

/-- The parameterized insert-group scan of
`parse_cross_store_benchmarks` (lines 77–96). -/
def scanInsert (entries : List Entry) : Except String JParamTable :=
  entries.foldlM scanInsertStep []

/-- One iteration of a scalar-group scan (get/bulk/secondary_query,
lines 100–107 etc.): skips non-directories and the reserved name
`report`, loads the estimate (a decode error propagates — there is
no surrounding `try` here), stores it when truthy. -/
def scanScalarStep (acc : JScalarTable) (e : Entry) : Except String JScalarTable :=
  if e.isDir && e.name != "report" then
    match load_estimates e.leaf with
    | .error err => .error err
    | .ok none => .ok acc
    | .ok (some j) =>
        if truthy j then
          match extract_mean_time_ns (some j) with
          | .error err => .error err
          | .ok v => .ok (dinsert acc e.name (v.getD .jnull))
        else .ok acc
  else .ok acc

/-- A scalar-group scan of `parse_cross_store_benchmarks`. -/
def scanScalar (entries : List Entry) : Except String JScalarTable :=
  entries.foldlM scanScalarStep []

/-! ### Derivation layer

The derivation functions operate on numeric tables (implementation →
time, resp. implementation → size → time), which is the shape the
scan produces on well-formed trees. -/

/-- A parameterized group's numeric table. -/
abbrev ParamQ := List (String × List (Int × ℚ))

/-- A scalar group's numeric table. -/
abbrev ScalarQ := List (String × ℚ)

/-- `calc_overhead` (lines 244–247). -/
def calc_overhead (wrapper_time raw_time : ℚ) : ℚ :=
  if raw_time = 0 then 0 else ((wrapper_time - raw_time) / raw_time) * 100

/-- Python `d[k]`: raises `KeyError` when the key is absent. -/
def pyIndex {κ α : Type} [DecidableEq κ] (l : List (κ × α)) (k : κ) :
    Except String α :=
  match alookup l k with
  | some v => .ok v
  | none => .error "KeyError"

/-- The `COLORS` dictionary (lines 23–50).  Note the naming scheme
of its keys (`sled_wrapper`, `redb_wrapper_loop`, …): it does not
contain the comparator keys (`wrapper_sled`, `wrapper_redb_loop`, …)
that the overhead panels index it with. -/
def COLORS : List (String × String) :=
  [("sled_raw", "#1f77b4"), ("sled_raw_loop", "#1f77b4"),
   ("sled_raw_batch", "#1a5a8a"), ("sled_wrapper", "#ff7f0e"),
   ("sled_wrapper_loop", "#ff7f0e"),
   ("redb_raw", "#2ca02c"), ("redb_raw_txn", "#2ca02c"),
   ("redb_raw_loop", "#2ca02c"), ("redb_raw_insert", "#2ca02c"),
   ("redb_raw_read_per_txn", "#267326"), ("redb_raw_read_single_txn", "#2ca02c"),
   ("redb_wrapper_loop", "#d62728"), ("redb_wrapper_bulk", "#9467bd"),
   ("redb_zerocopy_loop", "#8c564b"), ("redb_zerocopy_bulk", "#e377c2"),
   ("redb_zerocopy_txn", "#7f7f7f"), ("redb_zerocopy_insert", "#8c564b"),
   ("redb_zerocopy_bulk_insert", "#e377c2"), ("redb_zerocopy_read", "#7f7f7f")]

/-- One guarded comparator block of the insert-overhead panel
(e.g. lines 259–263): `if impl in data['insert'] and size in
data['insert'][impl]:` append `calc_overhead(time, base)` and the
label, then append `COLORS[impl]` — which raises `KeyError` when
`impl` is not a key of `COLORS` (the appends die with the aborted
panel, so the block's observable result is the exception). -/
def maybeRow (tab : ParamQ) (impl : String) (size : Int) (label : String)
    (base : ℚ) : Except String (List (String × ℚ)) :=
  match alookup tab impl with
  | some m =>
      match alookup m size with
      | some t =>
          match pyIndex COLORS impl with
          | .error e => .error e
          | .ok _ => .ok [(label, calc_overhead t base)]
      | none => .ok []
  | none => .ok []

/-- The size-100 insert panel of `generate_overhead_percentage_chart`
(lines 249–296): guarded on `100 in data['insert'].get('raw_sled', {})`,
then the *unguarded* lookups `data['insert']['raw_sled'][100]` and
`data['insert']['raw_redb'][100]`, then four guarded comparator
blocks, each of which indexes `COLORS` with its comparator key. -/
def overhead_insert_100 (tab : ParamQ) : Except String (List (String × ℚ)) :=
  if (alookup ((alookup tab "raw_sled").getD []) (100 : Int)).isSome then
    match pyIndex tab "raw_sled" with
    | .error e => .error e
    | .ok raw_sled_m =>
        match pyIndex raw_sled_m (100 : Int) with
        | .error e => .error e
        | .ok raw_sled_100 =>
            match pyIndex tab "raw_redb" with
            | .error e => .error e
            | .ok raw_redb_m =>
                match pyIndex raw_redb_m (100 : Int) with
                | .error e => .error e
                | .ok raw_redb_100 =>
                    match maybeRow tab "wrapper_sled" 100 "Sled Wrapper" raw_sled_100 with
                    | .error e => .error e
                    | .ok r1 =>
                        match maybeRow tab "wrapper_redb_loop" 100 "Redb Wrapper\n(loop)" raw_redb_100 with
                        | .error e => .error e
                        | .ok r2 =>
                            match maybeRow tab "wrapper_redb_bulk" 100 "Redb Wrapper\n(bulk)" raw_redb_100 with
                            | .error e => .error e
                            | .ok r3 =>
                                match maybeRow tab "zerocopy_redb" 100 "Redb ZeroCopy" raw_redb_100 with
                                | .error e => .error e
                                | .ok r4 => .ok (r1 ++ r2 ++ r3 ++ r4)
  else .ok []

/-- Python float division: raises `ZeroDivisionError` on a zero
divisor (it does not produce an IEEE infinity). -/
def pyDiv (a b : ℚ) : Except String ℚ :=
  if b = 0 then .error "ZeroDivisionError" else .ok (a / b)

/-- The insert panel of `generate_speedup_comparison` (lines
417–430): guarded on both implementations being present; for each of
the fixed sizes 100 and 1000, appends `loop/bulk` when both times
are present and `0` otherwise. -/
def insertSpeedups (tab : ParamQ) : Except String (List ℚ) :=
  match alookup tab "wrapper_redb_loop", alookup tab "wrapper_redb_bulk" with
  | some lm, some bm =>
      ([100, 1000] : List Int).foldlM
        (fun acc size =>
          match alookup lm size, alookup bm size with
          | some lt, some bt =>
              match pyDiv lt bt with
              | .error e => .error e
              | .ok s => .ok (acc ++ [s])
          | _, _ => .ok (acc ++ [0]))
        []
  | _, _ => .ok []

/-- The get panel of `generate_speedup_comparison` (lines 446–451):
guarded on both implementations being present, then an unguarded
division `loop_time / bulk_time`. -/
def getSpeedup (g : ScalarQ) : Except String (Option ℚ) :=
  match alookup g "wrapper_redb_loop", alookup g "wrapper_redb_bulk" with
  | some lt, some bt =>
      match pyDiv lt bt with
      | .error e => .error e
      | .ok s => .ok (some s)
  | _, _ => .ok none

/-! ### Ordinal string order and the summary table

Python `sorted` on `str` compares code points lexicographically —
a total, locale-independent ordinal order.  We embed it as a
computable Boolean comparison. -/

/-- Lexicographic code-point comparison on character lists. -/
def charsLe : List Char → List Char → Bool
  | [], _ => true
  | _ :: _, [] => false
  | a :: as, b :: bs =>
      if a.toNat < b.toNat then true
      else if b.toNat < a.toNat then false
      else charsLe as bs

/-- Ordinal (code-point lexicographic) order on strings, the
comparison Python's `sorted` applies to `str` keys. -/
def strLe (a b : String) : Bool := charsLe a.data b.data

/-- The ordinal order as a relation. -/
def StrLE (a b : String) : Prop := strLe a b = true

instance : DecidableRel StrLE := fun a b => instDecidableEqBool (strLe a b) true

/-- `sorted(keys)` for string keys: Python's `sorted` is a stable
ascending sort under the ordinal order; we embed it as a stable
structural sort under the same order. -/
def sortStrs (l : List String) : List String := l.insertionSort StrLE

/-- The insert section of `generate_absolute_performance_table`
(lines 481–484): one row per implementation in sorted key order,
columns `data['insert'][impl].get(100, 0)/1_000_000` and
`.get(1000, 0)/1_000_000`. -/
def summarizeInsert (tab : ParamQ) : List (String × ℚ × ℚ) :=
  (sortStrs (tab.map (fun p => p.1))).map (fun impl =>
    let m := (alookup tab impl).getD []
    (impl, (alookup m (100 : Int)).getD 0 / 1000000,
           (alookup m (1000 : Int)).getD 0 / 1000000))

/-- The summary viewed as one row per `(implementation, size)` pair,
sizes in the fixed order 100 then 1000. -/
def summaryRows (tab : ParamQ) : List (String × Int × ℚ) :=
  (summarizeInsert tab).flatMap (fun r =>
    [(r.1, (100 : Int), r.2.1), (r.1, (1000 : Int), r.2.2)])

/-- Row order of the summary: by implementation name in the ordinal
string order, then (within one implementation) by size ascending. -/
def RowLE (a b : String × Int × ℚ) : Prop :=
  strLe a.1 b.1 = true ∧ (a.1 = b.1 → a.2.1 ≤ b.2.1)

/-! ### Traversal order, well-formedness and per-entry views of the scan

The storage layer guarantees no listing order; two listings of the
same tree are permutations of one another, at the implementation
level and inside each implementation directory.  A well-formed tree
has no two directory entries with the same name at either level
(true of any real directory listing; two distinct numeric names such
as `10` and `+10` denoting the same size are likewise excluded). -/

/-- The size keys a sub-entry listing can contribute: directory
entries whose names parse as integers. -/
def acceptedSizeKeys (subs : List SubEntry) : List Int :=
  subs.filterMap (fun s => if s.isDir then pyInt s.name else none)

/-- The contribution of one sub-entry to the size dict: `none` when
it is skipped, the key/value pair when it is stored, an error when
`extract_mean_time_ns` raises.  `scanSizeStep` is exactly this
contribution folded into the accumulator dict. -/
def scanSizeItem (s : SubEntry) : Except String (Option (Int × Json)) :=
  if s.isDir then
    match pyInt s.name with
    | none => .ok none
    | some size =>
        match load_estimates s.leaf with
        | .error _ => .ok none
        | .ok none => .ok none
        | .ok (some j) =>
            if truthy j then
              match extract_mean_time_ns (some j) with
              | .error e => .error e
              | .ok v => .ok (some (size, v.getD .jnull))
            else .ok none
  else .ok none

/-- The contribution of one implementation directory to the insert
table. -/
def insertItem (e : Entry) : Except String (String × List (Int × Json)) :=
  match scanSizesFrom [] e.subs with
  | .error err => .error err
  | .ok sizes => .ok (e.name, sizes)

/-- Error-propagating map over a list (the per-entry view of a scan
loop: each entry contributes independently, the first raised
exception aborts). -/
def mapE {α β : Type} (f : α → Except String β) : List α → Except String (List β)
  | [] => .ok []
  | x :: l =>
      match f x with
      | .error e => .error e
      | .ok b =>
          match mapE f l with
          | .error e => .error e
          | .ok bs => .ok (b :: bs)

/-- Directory-listing well-formedness: no duplicate directory names
at the implementation level, and inside each implementation no two
sub-entries contributing the same size key. -/
def WellFormedTree (t : List Entry) : Prop :=
  ((t.filter (fun e => e.isDir)).map (fun e => e.name)).Nodup
  ∧ ∀ e ∈ t, (acceptedSizeKeys e.subs).Nodup

/-- The same directory entry seen by two listings: identical name,
kind and estimate leaf, with the sub-entries in a possibly different
order. -/
def EntryRel (a b : Entry) : Prop :=
  a.name = b.name ∧ a.isDir = b.isDir ∧ a.leaf = b.leaf ∧ a.subs.Perm b.subs

/-- Two listings of the same tree in different traversal orders: the
implementation entries are permuted, and each implementation's
sub-entries are permuted. -/
def TreeEquiv (t1 t2 : List Entry) : Prop :=
  ∃ t', t1.Perm t' ∧ List.Forall₂ EntryRel t' t2

/-! ### Numeric projection of a scanned table -/

/-- The numeric value of a stored estimate, when it is a number. -/
def numVal : Json → Option ℚ
  | .jnum q => some q
  | _ => none

/-- A scanned size dict all of whose stored values are numbers. -/
def numSizes (l : List (Int × Json)) : Option (List (Int × ℚ)) :=
  if l.all (fun p => (numVal p.2).isSome) then
    some (l.filterMap (fun p => (numVal p.2).map (fun q => (p.1, q))))
  else none

/-- A scanned parameterized table all of whose stored values are
numbers, projected to the numeric table the derivation layer
consumes. -/
def numTable (t : JParamTable) : Option ParamQ :=
  if t.all (fun p => (numSizes p.2).isSome) then
    some (t.filterMap (fun p => (numSizes p.2).map (fun m => (p.1, m))))
  else none

/-! ### Helper lemmas -/

@[simp] lemma error_bind {α β : Type} (e : String) (k : α → Except String β) :
    (Except.error e >>= k) = Except.error e := rfl

@[simp] lemma ok_bind {α β : Type} (x : α) (k : α → Except String β) :
    (Except.ok x >>= k) = k x := rfl

/-- A successful lookup key is among the keys. -/
lemma alookup_eq_some_mem {κ α : Type} [DecidableEq κ] {l : List (κ × α)} {k : κ}
    {v : α} (h : alookup l k = some v) : k ∈ l.map (fun p => p.1) := by
  induction l with
  | nil => simp [alookup] at h
  | cons p rest ih =>
      by_cases hk : p.1 = k
      · simp [hk]
      · unfold alookup at h
        rw [if_neg hk] at h
        exact List.mem_cons_of_mem _ (ih h)

/-- Filtering a key-tagged map by key commutes with filtering the
keys. -/
lemma filter_key_map {β : Type} (ks : List String) (f : String → String × β)
    (hf : ∀ k, (f k).1 = k) (impl : String) :
    (ks.map f).filter (fun r => r.1 == impl)
      = (ks.filter (fun k => k == impl)).map f := by
  induction ks with
  | nil => rfl
  | cons k ks ih =>
      by_cases h : k = impl
      · simp [List.filter_cons, hf, h, ih]
      · simp [List.filter_cons, hf, h, ih]

/-- In a nodup list, filtering for a present element yields exactly
that element. -/
lemma filter_eq_singleton {ks : List String} (hn : ks.Nodup) {impl : String}
    (hmem : impl ∈ ks) : ks.filter (fun k => k == impl) = [impl] := by
  induction ks with
  | nil => cases hmem
  | cons a ks ih =>
      rcases List.mem_cons.1 hmem with h | hmem'
      · subst h
        have hnotin : impl ∉ ks := (List.nodup_cons.1 hn).1
        have hfe : ks.filter (fun k => k == impl) = [] := by
          rw [List.filter_eq_nil_iff]
          intro x hx
          simp only [beq_iff_eq]
          rintro rfl
          exact hnotin hx
        simp [List.filter_cons, hfe]
      · have hne : a ≠ impl := by
          rintro rfl
          exact (List.nodup_cons.1 hn).1 hmem'
        simp [List.filter_cons, hne, ih (List.nodup_cons.1 hn).2 hmem']

/-! ### Claims -/

/-- C1: the claim says the overhead derivation returns an empty
sequence and never raises when the baseline's time is absent, with no
unguarded time lookup.  The code guards only `raw_sled`: when
`raw_sled` has a time at size 100 the lookup
`data['insert']['raw_redb'][100]` is unguarded and raises `KeyError`
on a table in which `raw_redb` is absent.  (When the guarded baseline
`raw_sled` is absent the panel does return no rows.) -/
theorem overhead_insert_unguarded_baseline :
    overhead_insert_100 [("raw_sled", [((100 : Int), (1 : ℚ))])] = .error "KeyError"
    ∧ overhead_insert_100 [("wrapper_sled", [((100 : Int), (1 : ℚ))])] = .ok [] :=
  ⟨rfl, rfl⟩

/-- C2 counterexample: the claim says the speedup derivation returns
no row when a time is absent or the fast time is zero, never raises,
and never emits a factor-0 row.  On the code: a zero fast time raises
`ZeroDivisionError` (there is no division guard), and the insert
panel appends a literal `0` for each of the sizes 100 and 1000 whose
pair of times is incomplete. -/
theorem speedup_missing_guard_counterexample :
    getSpeedup [("wrapper_redb_loop", (1 : ℚ)), ("wrapper_redb_bulk", 0)]
      = .error "ZeroDivisionError"
    ∧ insertSpeedups [("wrapper_redb_loop", [((100 : Int), (5 : ℚ))]),
        ("wrapper_redb_bulk", [((1000 : Int), (1 : ℚ))])] = .ok [0, 0] :=
  ⟨rfl, rfl⟩

/-- C2 amended: the get-branch speedup emits no row when either
implementation is absent and `slow/fast` when both are present with
a nonzero fast time; a zero fast time raises `ZeroDivisionError`
(the insert branch moreover renders an incomplete size pair as a
factor-0 entry, per the counterexample). -/
theorem getSpeedup_behavior (g : ScalarQ) :
    ((alookup g "wrapper_redb_loop").isNone ∨ (alookup g "wrapper_redb_bulk").isNone →
        getSpeedup g = .ok none)
    ∧ (∀ lt bt : ℚ, alookup g "wrapper_redb_loop" = some lt →
        alookup g "wrapper_redb_bulk" = some bt →
        (bt = 0 → getSpeedup g = .error "ZeroDivisionError")
        ∧ (bt ≠ 0 → getSpeedup g = .ok (some (lt / bt)))) := by
  constructor
  · intro h
    rcases h with h | h
    · rw [Option.isNone_iff_eq_none] at h
      simp [getSpeedup, h]
    · rw [Option.isNone_iff_eq_none] at h
      cases hl : alookup g "wrapper_redb_loop" <;> simp [getSpeedup, hl, h]
  · intro lt bt hl hb
    constructor
    · intro hz; simp [getSpeedup, hl, hb, pyDiv, hz]
    · intro hz; simp [getSpeedup, hl, hb, pyDiv, hz]

/-- C2 witness: the amended theorem applied to a concrete table with
both implementations present and a nonzero fast time. -/
theorem getSpeedup_behavior_witness :
    getSpeedup [("wrapper_redb_loop", (6 : ℚ)), ("wrapper_redb_bulk", 3)] = .ok (some 2) := by
  have h := ((getSpeedup_behavior
      [("wrapper_redb_loop", (6 : ℚ)), ("wrapper_redb_bulk", 3)]).2 6 3 rfl rfl).2
      (by norm_num)
  rw [h]
  norm_num

/-- C3 counterexample: the claim says a present file that is valid
JSON but lacks the mean/point_estimate shape aborts the scan with an
error naming the file.  On the code, such a file is not fatal at
all: `estimates.get('mean', {}).get('point_estimate', 0)` yields the
default 0, which is stored as the implementation's time. -/
theorem malformed_shape_not_fatal :
    scanScalar [⟨"implA", true, EstFile.parsed (.jobj [("other", .jnum 1)]), []⟩]
      = .ok [("implA", Json.jnum 0)] :=
  rfl

/-- C3 amended: a file that is present but not decodable as JSON
aborts a scalar-group scan with a `JSONDecodeError` (which does not
name the file), distinguishably from the absent-file case, which is
silently omitted; in the parameterized insert scan the decode error
is caught by the `except ValueError` around the size parse (it
subclasses `ValueError`) and the entry is silently skipped; and a
valid-JSON file lacking the mean/point_estimate shape is not an
error — a truthy mapping yields a stored time of 0. -/
theorem scan_malformed_behavior :
    (∀ (name : String) (subs : List SubEntry) (rest : List Entry), name ≠ "report" →
        scanScalar (⟨name, true, EstFile.malformed, subs⟩ :: rest) = .error "JSONDecodeError")
    ∧ (∀ (acc : JScalarTable) (name : String) (subs : List SubEntry),
        scanScalarStep acc ⟨name, true, EstFile.absent, subs⟩ = .ok acc)
    ∧ (∀ (acc : List (Int × Json)) (name : String),
        scanSizeStep acc ⟨name, true, EstFile.malformed⟩ = .ok acc)
    ∧ scanScalar [⟨"implB", true, EstFile.parsed (.jobj [("other", .jnum 1)]), []⟩]
      = .ok [("implB", Json.jnum 0)] := by
  refine ⟨?_, ?_, ?_, rfl⟩
  · intro name subs rest hname
    simp [scanScalar, List.foldlM_cons, scanScalarStep, load_estimates, hname]
  · intro acc name subs
    by_cases h : name = "report" <;> simp [scanScalarStep, h, load_estimates]
  · intro acc name
    cases hp : pyInt name <;> simp [scanSizeStep, load_estimates, hp]

/-- C3 witness: the fatal-decode statement applied to a concrete
malformed leaf. -/
theorem scan_malformed_behavior_witness :
    scanScalar [⟨"implC", true, EstFile.malformed, []⟩] = .error "JSONDecodeError" :=
  scan_malformed_behavior.1 "implC" [] [] (by decide)

/-- C4: the claim says `report` is never accepted as an
implementation name at any implementation-scan level.  The scalar
scans do exclude it, but the parameterized insert scan has no such
check: a directory named `report` under the insert group becomes an
implementation key of the resulting table. -/
theorem report_not_excluded_in_insert_scan :
    scanInsert [⟨"report", true, EstFile.absent, []⟩] = .ok [("report", [])]
    ∧ scanScalar [⟨"report", true,
        EstFile.parsed (.jobj [("mean", .jobj [("point_estimate", .jnum 5)])]), []⟩]
      = .ok [] :=
  ⟨rfl, rfl⟩

/-- C5: the overhead value the code computes does equal
`(comparator − baseline) / baseline × 100` (and is 20 at the claim's
concrete pair of times), but the claim's "exactly one row is
emitted" fails on the code: right after appending the overhead, the
comparator block indexes `COLORS['wrapper_sled']` (line 263), a key
the `COLORS` dict does not contain (it has `sled_wrapper`), so the
panel aborts with `KeyError` and no row is ever emitted. -/
theorem overhead_pct_formula :
    (∀ w r : ℚ, r ≠ 0 → calc_overhead w r = (w - r) / r * 100)
    ∧ calc_overhead 1200000 1000000 = 20
    ∧ overhead_insert_100
        [("raw_sled", [((100 : Int), (1000000 : ℚ))]),
         ("raw_redb", [((100 : Int), (1000000 : ℚ))]),
         ("wrapper_sled", [((100 : Int), (1200000 : ℚ))])]
      = .error "KeyError" := by
  refine ⟨?_, ?_, rfl⟩
  · intro w r hr
    simp [calc_overhead, hr]
  · norm_num [calc_overhead]

/-- C5 witness: the formula applied at the concrete pair of times
from the claim. -/
theorem overhead_pct_formula_witness :
    calc_overhead 1200000 1000000 = ((1200000 : ℚ) - 1000000) / 1000000 * 100 :=
  overhead_pct_formula.1 1200000 1000000 (by norm_num)

/-- C6: the zero-baseline policy itself holds — `calc_overhead`
returns 0 for a zero baseline without reaching the division (no
arithmetic fault), and with both baselines 0 and no comparator the
panel completes returning no rows — but the claim's "emits
overhead_pct = 0 for every comparator whose time is present" fails
on the code: with a present comparator the block then indexes
`COLORS` with a key the dict does not contain and the panel aborts
with `KeyError`, emitting nothing. -/
theorem overhead_zero_baseline :
    (∀ w : ℚ, calc_overhead w 0 = 0)
    ∧ overhead_insert_100
        [("raw_sled", [((100 : Int), (0 : ℚ))]),
         ("raw_redb", [((100 : Int), (0 : ℚ))])]
      = .ok []
    ∧ overhead_insert_100
        [("raw_sled", [((100 : Int), (0 : ℚ))]),
         ("raw_redb", [((100 : Int), (0 : ℚ))]),
         ("wrapper_sled", [((100 : Int), (5 : ℚ))])]
      = .error "KeyError" := by
  refine ⟨?_, rfl, rfl⟩
  intro w
  simp [calc_overhead]

/-- C6 witness: the zero-baseline policy applied at a concrete
comparator time. -/
theorem overhead_zero_baseline_witness : calc_overhead 5 0 = 0 :=
  overhead_zero_baseline.1 5

/-- C8: the speedup factor is always `slow/fast` (no inference of
which is faster), and with loop time 1000000 and bulk time 200000 in
the non-parameterized get group the factor is 5. -/
theorem speedup_slow_over_fast :
    (∀ (g : ScalarQ) (lt bt : ℚ), alookup g "wrapper_redb_loop" = some lt →
        alookup g "wrapper_redb_bulk" = some bt → bt ≠ 0 →
        getSpeedup g = .ok (some (lt / bt)))
    ∧ getSpeedup [("wrapper_redb_loop", (1000000 : ℚ)), ("wrapper_redb_bulk", 200000)]
      = .ok (some 5) := by
  constructor
  · intro g lt bt hl hb hz
    simp [getSpeedup, hl, hb, pyDiv, hz]
  · have h : getSpeedup [("wrapper_redb_loop", (1000000 : ℚ)), ("wrapper_redb_bulk", 200000)]
        = .ok (some ((1000000 : ℚ) / 200000)) := rfl
    rw [h]
    norm_num

/-- C8 witness: the general ratio statement applied at a concrete
table. -/
theorem speedup_slow_over_fast_witness :
    getSpeedup [("wrapper_redb_loop", (8 : ℚ)), ("wrapper_redb_bulk", 2)]
      = .ok (some ((8 : ℚ) / 2)) :=
  speedup_slow_over_fast.1 [("wrapper_redb_loop", (8 : ℚ)), ("wrapper_redb_bulk", 2)]
    8 2 rfl rfl (by norm_num)

/-- C9 counterexample: the claim says a sub-entry is accepted as a
size only if its name parses as a non-negative integer.  Python
`int` also accepts negative decimals: a size directory named `-5`
is accepted and keyed as −5 in the table. -/
theorem negative_size_accepted :
    scanInsert [⟨"implA", true, EstFile.absent,
        [⟨"-5", true, EstFile.parsed (.jobj [("mean", .jobj [("point_estimate", .jnum 1000000)])])⟩]⟩]
      = .ok [("implA", [((-5 : Int), Json.jnum 1000000)])] :=
  rfl

/-- C9 amended: a size-directory entry is accepted exactly when its
name parses under Python `int` semantics — optional surrounding
whitespace, an optional sign (so negative values such as `-5` are
accepted), decimal digits possibly grouped by single underscores —
and every name that does not parse (such as `abc`) is silently
skipped without raising. -/
theorem size_name_parse_behavior :
    (∀ (acc : List (Int × Json)) (s : SubEntry), s.isDir = true → pyInt s.name = none →
        scanSizeStep acc s = .ok acc)
    ∧ pyInt "abc" = none
    ∧ pyInt "-5" = some (-5)
    ∧ pyInt " 5" = some 5
    ∧ pyInt "1_0" = some 10
    ∧ pyInt "1_" = none := by
  refine ⟨?_, rfl, rfl, rfl, rfl, rfl⟩
  intro acc s hd hp
  simp [scanSizeStep, hd, hp]

/-- C9 witness: the skip statement applied to a concrete `abc`
sub-entry. -/
theorem size_name_parse_behavior_witness :
    scanSizeStep [] ⟨"abc", true, EstFile.absent⟩ = .ok [] :=
  size_name_parse_behavior.1 [] ⟨"abc", true, EstFile.absent⟩ rfl rfl

/-- C10: in the insert summary every implementation present in the
table contributes exactly one row, whose size-100 and size-1000
values are the table's entries when present and the default 0
(scaled: 0.000 ms) when absent; in particular a table with an absent
entry and a table with a true zero entry summarize identically. -/
theorem summary_absent_as_zero (tab : ParamQ) (impl : String) (m : List (Int × ℚ))
    (hn : (tab.map (fun p => p.1)).Nodup) (hm : alookup tab impl = some m) :
    (summarizeInsert tab).filter (fun r => r.1 == impl)
      = [(impl, (alookup m (100 : Int)).getD 0 / 1000000,
           (alookup m (1000 : Int)).getD 0 / 1000000)]
    ∧ summarizeInsert [("implA", [])]
      = summarizeInsert [("implA", [((100 : Int), (0 : ℚ)), ((1000 : Int), (0 : ℚ))])] := by
  constructor
  · have hkeys : impl ∈ sortStrs (tab.map (fun p => p.1)) :=
      ((List.perm_insertionSort StrLE _).mem_iff).2 (alookup_eq_some_mem hm)
    have hnodup : (sortStrs (tab.map (fun p => p.1))).Nodup :=
      ((List.perm_insertionSort StrLE _).nodup_iff).2 hn
    unfold summarizeInsert
    rw [filter_key_map _ _ (fun k => rfl) impl, filter_eq_singleton hnodup hkeys]
    simp [hm]
  · rfl

/-- C10 witness: the row-shape statement applied at a concrete
one-implementation table. -/
theorem summary_absent_as_zero_witness :
    (summarizeInsert [("a", [((100 : Int), (2000000 : ℚ))])]).filter (fun r => r.1 == "a")
      = [("a", (alookup [((100 : Int), (2000000 : ℚ))] (100 : Int)).getD 0 / 1000000,
          (alookup [((100 : Int), (2000000 : ℚ))] (1000 : Int)).getD 0 / 1000000)]
    ∧ summarizeInsert [("implA", [])]
      = summarizeInsert [("implA", [((100 : Int), (0 : ℚ)), ((1000 : Int), (0 : ℚ))])] :=
  summary_absent_as_zero [("a", [((100 : Int), (2000000 : ℚ))])] "a" _ (by simp) rfl

/-! ### Order lemmas for the ordinal string comparison -/

lemma char_toNat_inj {a b : Char} (h : a.toNat = b.toNat) : a = b := by
  have h2 := congrArg Char.ofNat h
  rwa [Char.ofNat_toNat, Char.ofNat_toNat] at h2

lemma charsLe_refl (l : List Char) : charsLe l l = true := by
  induction l with
  | nil => rfl
  | cons a l ih => simp [charsLe, lt_self_iff_false, ih]

lemma charsLe_total (x y : List Char) : charsLe x y = true ∨ charsLe y x = true := by
  induction x generalizing y with
  | nil => left; rfl
  | cons a as ih =>
      cases y with
      | nil => right; rfl
      | cons b bs =>
          rcases Nat.lt_trichotomy a.toNat b.toNat with h | h | h
          · left; simp [charsLe, h]
          · have hab : a = b := char_toNat_inj h
            subst hab
            rcases ih bs with h2 | h2
            · left; simp [charsLe, lt_self_iff_false, h2]
            · right; simp [charsLe, lt_self_iff_false, h2]
          · right; simp [charsLe, h]

lemma charsLe_trans {x y z : List Char} (h1 : charsLe x y = true)
    (h2 : charsLe y z = true) : charsLe x z = true := by
  induction x generalizing y z with
  | nil => rfl
  | cons a as ih =>
      cases y with
      | nil => simp [charsLe] at h1
      | cons b bs =>
          cases z with
          | nil => simp [charsLe] at h2
          | cons c cs =>
              rcases Nat.lt_trichotomy a.toNat b.toNat with hab | hab | hab
              · rcases Nat.lt_trichotomy b.toNat c.toNat with hbc | hbc | hbc
                · simp [charsLe, Nat.lt_trans hab hbc]
                · have : b = c := char_toNat_inj hbc
                  subst this
                  simp [charsLe, hab]
                · simp [charsLe, Nat.lt_asymm hbc, hbc] at h2
              · have : a = b := char_toNat_inj hab
                subst this
                simp only [charsLe, lt_self_iff_false, if_false] at h1
                rcases Nat.lt_trichotomy a.toNat c.toNat with hac | hac | hac
                · simp [charsLe, hac]
                · have : a = c := char_toNat_inj hac
                  subst this
                  simp only [charsLe, lt_self_iff_false, if_false] at h2 ⊢
                  exact ih h1 h2
                · simp [charsLe, Nat.lt_asymm hac, hac] at h2
              · simp [charsLe, Nat.lt_asymm hab, hab] at h1

lemma charsLe_antisymm {x y : List Char} (h1 : charsLe x y = true)
    (h2 : charsLe y x = true) : x = y := by
  induction x generalizing y with
  | nil =>
      cases y with
      | nil => rfl
      | cons b bs => simp [charsLe] at h2
  | cons a as ih =>
      cases y with
      | nil => simp [charsLe] at h1
      | cons b bs =>
          rcases Nat.lt_trichotomy a.toNat b.toNat with h | h | h
          · simp [charsLe, Nat.lt_asymm h, h] at h2
          · have hab : a = b := char_toNat_inj h
            subst hab
            simp only [charsLe, lt_self_iff_false, if_false] at h1 h2
            rw [ih h1 h2]
          · simp [charsLe, Nat.lt_asymm h, h] at h1

lemma string_data_inj {a b : String} (h : a.data = b.data) : a = b := by
  cases a
  cases b
  exact congrArg String.mk h

/-- `StrLE` is total. -/
instance : IsTotal String StrLE :=
  ⟨fun a b => charsLe_total a.data b.data⟩

/-- `StrLE` is transitive. -/
instance : IsTrans String StrLE :=
  ⟨fun _ _ _ h1 h2 => charsLe_trans h1 h2⟩

/-- `StrLE` is antisymmetric. -/
instance : IsAntisymm String StrLE :=
  ⟨fun _ _ h1 h2 => string_data_inj (charsLe_antisymm h1 h2)⟩

lemma strLe_refl (a : String) : strLe a a = true := charsLe_refl a.data

lemma sortStrs_perm (l : List String) : (sortStrs l).Perm l :=
  List.perm_insertionSort _ _

lemma sortStrs_sorted (l : List String) : (sortStrs l).Sorted StrLE :=
  List.sorted_insertionSort _ _

lemma sortStrs_eq_of_perm {l1 l2 : List String} (h : l1.Perm l2) :
    sortStrs l1 = sortStrs l2 :=
  List.eq_of_perm_of_sorted
    ((sortStrs_perm l1).trans (h.trans (sortStrs_perm l2).symm))
    (sortStrs_sorted l1) (sortStrs_sorted l2)

/-! ### Association-list and `mapM` lemmas -/

@[simp] lemma alookup_cons {κ α : Type} [DecidableEq κ] (p : κ × α)
    (l : List (κ × α)) (k : κ) :
    alookup (p :: l) k = if p.1 = k then some p.2 else alookup l k := rfl

@[simp] lemma pure_except {α : Type} (x : α) :
    (pure x : Except String α) = .ok x := rfl

@[simp] lemma except_map_ok {α β : Type} (f : α → β) (x : α) :
    (Except.ok x : Except String α).map f = .ok (f x) := rfl

@[simp] lemma except_map_error {α β : Type} (f : α → β) (e : String) :
    (Except.error e : Except String α).map f = .error e := rfl

lemma alookup_append_right_of_none {κ α : Type} [DecidableEq κ]
    {l1 : List (κ × α)} (l2 : List (κ × α)) (k : κ) (h : alookup l1 k = none) :
    alookup (l1 ++ l2) k = alookup l2 k := by
  induction l1 with
  | nil => rfl
  | cons p l1 ih =>
      rw [alookup_cons] at h
      by_cases hk : p.1 = k
      · rw [if_pos hk] at h
        cases h
      · rw [if_neg hk] at h
        rw [List.cons_append, alookup_cons, if_neg hk]
        exact ih h

lemma alookup_append_self {κ α : Type} [DecidableEq κ] {l : List (κ × α)}
    {k : κ} (h : alookup l k = none) (v : α) :
    alookup (l ++ [(k, v)]) k = some v := by
  rw [alookup_append_right_of_none _ _ h]
  simp [alookup]

lemma alookup_singleton_ne {κ α : Type} [DecidableEq κ] {k k' : κ}
    (h : k ≠ k') (v : α) : alookup [(k, v)] k' = none := by
  simp [alookup, h]

lemma dinsert_fresh {κ α : Type} [DecidableEq κ] {l : List (κ × α)} {k : κ}
    (h : alookup l k = none) (v : α) : dinsert l k v = l ++ [(k, v)] := by
  induction l with
  | nil => rfl
  | cons p l ih =>
      rw [alookup_cons] at h
      by_cases hk : p.1 = k
      · rw [if_pos hk] at h
        cases h
      · rw [if_neg hk] at h
        obtain ⟨k2, v2⟩ := p
        simp only at hk
        rw [List.cons_append]
        unfold dinsert
        rw [if_neg hk, ih h]

lemma dinsert_append_fresh {κ α : Type} [DecidableEq κ] {l : List (κ × α)}
    {k : κ} (h : alookup l k = none) (x v : α) :
    dinsert (l ++ [(k, x)]) k v = l ++ [(k, v)] := by
  induction l with
  | nil => simp [dinsert]
  | cons p l ih =>
      rw [alookup_cons] at h
      by_cases hk : p.1 = k
      · rw [if_pos hk] at h
        cases h
      · rw [if_neg hk] at h
        obtain ⟨k2, v2⟩ := p
        simp only at hk
        rw [List.cons_append, List.cons_append]
        unfold dinsert
        rw [if_neg hk, ih h]

lemma alookup_mem {κ α : Type} [DecidableEq κ] {l : List (κ × α)} {k : κ}
    {v : α} (h : alookup l k = some v) : (k, v) ∈ l := by
  induction l with
  | nil => cases h
  | cons p l ih =>
      rw [alookup_cons] at h
      by_cases hk : p.1 = k
      · rw [if_pos hk] at h
        injection h with h
        subst hk
        subst h
        exact List.mem_cons_self _ _
      · rw [if_neg hk] at h
        exact List.mem_cons_of_mem _ (ih h)

lemma alookup_some_of_mem_keys {κ α : Type} [DecidableEq κ] {l : List (κ × α)}
    {k : κ} (h : k ∈ l.map (fun p => p.1)) : ∃ v, alookup l k = some v := by
  induction l with
  | nil => simp at h
  | cons p l ih =>
      by_cases hk : p.1 = k
      · exact ⟨p.2, by rw [alookup_cons, if_pos hk]⟩
      · rw [List.map_cons] at h
        rcases List.mem_cons.1 h with h' | h'
        · exact absurd h'.symm hk
        · rcases ih h' with ⟨v, hv⟩
          exact ⟨v, by rw [alookup_cons, if_neg hk]; exact hv⟩

lemma alookup_perm {κ α : Type} [DecidableEq κ] {l1 l2 : List (κ × α)}
    (hp : l1.Perm l2) (hn : (l1.map (fun p => p.1)).Nodup) (k : κ) :
    alookup l1 k = alookup l2 k := by
  induction hp with
  | nil => rfl
  | cons x hp ih =>
      rw [List.map_cons, List.nodup_cons] at hn
      by_cases hx : x.1 = k <;> simp [alookup_cons, hx, ih hn.2]
  | swap x y l =>
      rw [List.map_cons, List.map_cons, List.nodup_cons, List.nodup_cons] at hn
      have hxy : y.1 ≠ x.1 := by
        intro h
        exact hn.1 (by rw [h]; exact List.mem_cons_self _ _)
      by_cases hy : y.1 = k
      · have hx : x.1 ≠ k := by rw [← hy]; exact fun h => hxy h.symm
        simp [alookup_cons, hx, hy]
      · by_cases hx : x.1 = k <;> simp [alookup_cons, hx, hy]
  | trans h1 h2 ih1 ih2 =>
      have hn2 : _ := ((h1.map (fun p => p.1)).nodup_iff).1 hn
      rw [ih1 hn, ih2 hn2]

lemma mapE_cons_ok {α β : Type} {f : α → Except String β} {x : α} {l : List α}
    {j : List β} :
    mapE f (x :: l) = .ok j ↔
      ∃ b bs, f x = .ok b ∧ mapE f l = .ok bs ∧ j = b :: bs := by
  cases hfx : f x with
  | error e =>
      simp only [mapE, hfx]
      constructor
      · intro h; cases h
      · rintro ⟨b, bs, hb, -, -⟩
        cases hb
  | ok b =>
      cases hml : mapE f l with
      | error e =>
          simp only [mapE, hfx, hml]
          constructor
          · intro h; cases h
          · rintro ⟨b', bs, -, hbs, -⟩
            cases hbs
      | ok bs =>
          simp only [mapE, hfx, hml]
          constructor
          · intro h
            injection h with h
            exact ⟨b, bs, rfl, rfl, h.symm⟩
          · rintro ⟨b', bs', hb, hbs, rfl⟩
            injection hb with hb
            injection hbs with hbs
            rw [hb, hbs]

lemma mapE_ok_forall₂ {α β : Type} {f : α → Except String β} {l : List α} :
    ∀ {j : List β}, mapE f l = .ok j → List.Forall₂ (fun a b => f a = .ok b) l j := by
  induction l with
  | nil =>
      intro j h
      injection h with h
      rw [← h]
      constructor
  | cons x l ih =>
      intro j h
      rcases mapE_cons_ok.1 h with ⟨b, bs, hfx, hml, rfl⟩
      exact List.Forall₂.cons hfx (ih hml)

lemma mapE_perm_ok {α β : Type} {f : α → Except String β} {l1 l2 : List α}
    (hp : l1.Perm l2) :
    ∀ {j1 : List β}, mapE f l1 = .ok j1 →
      ∃ j2, mapE f l2 = .ok j2 ∧ j1.Perm j2 := by
  induction hp with
  | nil => exact fun h => ⟨_, h, List.Perm.refl _⟩
  | cons x hp ih =>
      intro j1 h
      rcases mapE_cons_ok.1 h with ⟨b, bs, hfx, hml, rfl⟩
      rcases ih hml with ⟨j2, hj2, hperm⟩
      exact ⟨b :: j2, mapE_cons_ok.2 ⟨b, j2, hfx, hj2, rfl⟩, hperm.cons b⟩
  | swap x y l =>
      intro j1 h
      rcases mapE_cons_ok.1 h with ⟨by1, rest1, hfy, h1, rfl⟩
      rcases mapE_cons_ok.1 h1 with ⟨bx, bs, hfx, hml, rfl⟩
      exact ⟨bx :: by1 :: bs,
        mapE_cons_ok.2 ⟨bx, by1 :: bs, hfx, mapE_cons_ok.2 ⟨by1, bs, hfy, hml, rfl⟩, rfl⟩,
        List.Perm.swap bx by1 bs⟩
  | trans h1 h2 ih1 ih2 =>
      intro j1 h
      rcases ih1 h with ⟨jmid, hmid, p1⟩
      rcases ih2 hmid with ⟨j2, hj2, p2⟩
      exact ⟨j2, hj2, p1.trans p2⟩

lemma mapE_forall₂ {α α' β β' : Type} {R : α → α' → Prop} {S : β → β' → Prop}
    {f : α → Except String β} {g : α' → Except String β'}
    (hRS : ∀ a b x y, R a b → f a = .ok x → g b = .ok y → S x y) :
    ∀ {l1 : List α} {l2 : List α'} {j1 : List β} {j2 : List β'},
      List.Forall₂ R l1 l2 → mapE f l1 = .ok j1 → mapE g l2 = .ok j2 →
      List.Forall₂ S j1 j2 := by
  intro l1 l2 j1 j2 hF
  induction hF generalizing j1 j2 with
  | nil =>
      intro h1 h2
      injection h1 with h1
      injection h2 with h2
      rw [← h1, ← h2]
      constructor
  | cons hab hF ih =>
      intro h1 h2
      rcases mapE_cons_ok.1 h1 with ⟨x, xs, hfx, hml1, rfl⟩
      rcases mapE_cons_ok.1 h2 with ⟨y, ys, hgy, hml2, rfl⟩
      exact List.Forall₂.cons (hRS _ _ _ _ hab hfx hgy) (ih hml1 hml2)

/-! ### Characterization of the scan loops -/

lemma scanSizeStep_eq (acc : List (Int × Json)) (s : SubEntry) :
    scanSizeStep acc s =
      match scanSizeItem s with
      | .error e => .error e
      | .ok none => .ok acc
      | .ok (some (k, v)) => .ok (dinsert acc k v) := by
  obtain ⟨name, d, leaf⟩ := s
  cases d with
  | false => rfl
  | true =>
      cases hp : pyInt name with
      | none => simp [scanSizeStep, scanSizeItem, hp]
      | some k =>
          cases leaf with
          | absent => simp [scanSizeStep, scanSizeItem, hp, load_estimates]
          | malformed => simp [scanSizeStep, scanSizeItem, hp, load_estimates]
          | parsed j =>
              by_cases ht : truthy j
              · cases hx : extract_mean_time_ns (some j) with
                | error e => simp [scanSizeStep, scanSizeItem, hp, load_estimates, ht, hx]
                | ok v => simp [scanSizeStep, scanSizeItem, hp, load_estimates, ht, hx]
              · simp [scanSizeStep, scanSizeItem, hp, load_estimates, ht]

lemma scanSizeItem_ok_some {s : SubEntry} {k : Int} {v : Json}
    (h : scanSizeItem s = .ok (some (k, v))) :
    (if s.isDir then pyInt s.name else none) = some k := by
  obtain ⟨name, d, leaf⟩ := s
  cases d with
  | false => cases h
  | true =>
      simp only [scanSizeItem, if_true] at h ⊢
      cases hp : pyInt name with
      | none => rw [hp] at h; cases h
      | some k' =>
          rw [hp] at h
          cases leaf with
          | absent => simp [load_estimates] at h
          | malformed => simp [load_estimates] at h
          | parsed j =>
              simp only [load_estimates] at h
              by_cases ht : truthy j
              · rw [if_pos ht] at h
                cases hx : extract_mean_time_ns (some j) with
                | error e => rw [hx] at h; cases h
                | ok w =>
                    rw [hx] at h
                    injection h with h
                    injection h with h
                    have hk : k' = k := congrArg Prod.fst h
                    rw [hk]
              · rw [if_neg ht] at h
                cases h

lemma acceptedSizeKeys_cons (s : SubEntry) (subs : List SubEntry) :
    acceptedSizeKeys (s :: subs) =
      match (if s.isDir then pyInt s.name else none) with
      | none => acceptedSizeKeys subs
      | some k => k :: acceptedSizeKeys subs := by
  simp only [acceptedSizeKeys, List.filterMap_cons]
  cases (if s.isDir then pyInt s.name else none) <;> rfl

lemma scanSizesFrom_spec (subs : List SubEntry) : ∀ (acc : List (Int × Json)),
    (∀ k ∈ acceptedSizeKeys subs, alookup acc k = none) →
    (acceptedSizeKeys subs).Nodup →
    scanSizesFrom acc subs
      = (mapE scanSizeItem subs).map (fun os => acc ++ os.filterMap id) := by
  induction subs with
  | nil =>
      intro acc _ _
      simp [scanSizesFrom, mapE]
  | cons s subs ih =>
      intro acc hdisj hn
      have hstep : scanSizesFrom acc (s :: subs)
          = (scanSizeStep acc s) >>= (fun a2 => scanSizesFrom a2 subs) := by
        simp [scanSizesFrom, List.foldlM_cons]
      rw [hstep, scanSizeStep_eq]
      cases hi : scanSizeItem s with
      | error e => simp [mapE, hi]
      | ok o =>
          cases o with
          | none =>
              have hkeys := acceptedSizeKeys_cons s subs
              have hdisj' : ∀ k ∈ acceptedSizeKeys subs, alookup acc k = none := by
                intro k hk
                apply hdisj
                rw [hkeys]
                cases (if s.isDir then pyInt s.name else none) with
                | none => exact hk
                | some k0 => exact List.mem_cons_of_mem _ hk
              have hn' : (acceptedSizeKeys subs).Nodup := by
                rw [hkeys] at hn
                revert hn
                cases (if s.isDir then pyInt s.name else none) with
                | none => exact id
                | some k0 => exact fun hn => (List.nodup_cons.1 hn).2
              simp only [ok_bind]
              rw [ih acc hdisj' hn']
              cases hms : mapE scanSizeItem subs with
              | error e => simp [mapE, hi, hms]
              | ok os => simp [mapE, hi, hms]
          | some kv =>
              obtain ⟨k, v⟩ := kv
              have hfs : (if s.isDir then pyInt s.name else none) = some k :=
                scanSizeItem_ok_some hi
              have hkeys : acceptedSizeKeys (s :: subs) = k :: acceptedSizeKeys subs := by
                rw [acceptedSizeKeys_cons, hfs]
              have hkmem : k ∈ acceptedSizeKeys (s :: subs) := by
                rw [hkeys]; exact List.mem_cons_self _ _
              have hacc : alookup acc k = none := hdisj k hkmem
              have hknotin : k ∉ acceptedSizeKeys subs := by
                rw [hkeys] at hn
                exact (List.nodup_cons.1 hn).1
              have hdisj' : ∀ k' ∈ acceptedSizeKeys subs,
                  alookup (acc ++ [(k, v)]) k' = none := by
                intro k' hk'
                have hne : k ≠ k' := fun h => hknotin (h ▸ hk')
                have hacc' : alookup acc k' = none := by
                  apply hdisj
                  rw [hkeys]
                  exact List.mem_cons_of_mem _ hk'
                rw [alookup_append_right_of_none _ _ hacc']
                exact alookup_singleton_ne hne v
              have hn' : (acceptedSizeKeys subs).Nodup := by
                rw [hkeys] at hn
                exact (List.nodup_cons.1 hn).2
              simp only [ok_bind]
              rw [dinsert_fresh hacc, ih (acc ++ [(k, v)]) hdisj' hn']
              cases hms : mapE scanSizeItem subs with
              | error e => simp [mapE, hi, hms]
              | ok os => simp [mapE, hi, hms]

lemma insertItem_ok_name {e : Entry} {p : String × List (Int × Json)}
    (h : insertItem e = .ok p) : p.1 = e.name := by
  unfold insertItem at h
  cases hs : scanSizesFrom [] e.subs with
  | error err => rw [hs] at h; cases h
  | ok sizes =>
      rw [hs] at h
      injection h with h
      rw [← h]

lemma insertItem_ok_sizes {e : Entry} {p : String × List (Int × Json)}
    (h : insertItem e = .ok p) : scanSizesFrom [] e.subs = .ok p.2 := by
  unfold insertItem at h
  cases hs : scanSizesFrom [] e.subs with
  | error err => rw [hs] at h; cases h
  | ok sizes =>
      rw [hs] at h
      injection h with h
      rw [← h]

lemma scanInsertStep_eq {acc : JParamTable} {e : Entry} (hd : e.isDir = true)
    (hfresh : alookup acc e.name = none) :
    scanInsertStep acc e = (insertItem e).map (fun p => acc ++ [p]) := by
  unfold scanInsertStep insertItem
  rw [hd]
  have h2 : (alookup acc e.name).isSome = false := by rw [hfresh]; rfl
  simp only [if_true, h2, Bool.false_eq_true, if_false,
    alookup_append_self hfresh ([] : List (Int × Json)), Option.getD_some]
  cases hs : scanSizesFrom [] e.subs with
  | error err => rfl
  | ok sizes =>
      simp only [except_map_ok]
      rw [dinsert_append_fresh hfresh]

lemma scanInsert_go (t : List Entry) : ∀ (acc : JParamTable),
    (∀ e ∈ t, e.isDir = true → alookup acc e.name = none) →
    ((t.filter (fun e => e.isDir)).map (fun e => e.name)).Nodup →
    t.foldlM scanInsertStep acc
      = (mapE insertItem (t.filter (fun e => e.isDir))).map (fun l => acc ++ l) := by
  induction t with
  | nil =>
      intro acc _ _
      simp [List.foldlM_nil, List.filter_nil, mapE]
  | cons e t ih =>
      intro acc hdisj hn
      rw [List.foldlM_cons]
      cases hd : e.isDir with
      | false =>
          have hstep : scanInsertStep acc e = .ok acc := by
            unfold scanInsertStep
            rw [hd]
            rfl
          rw [hstep]
          simp only [ok_bind]
          rw [List.filter_cons_of_neg (by rw [hd]; exact Bool.false_ne_true)]
          exact ih acc (fun e' he' => hdisj e' (List.mem_cons_of_mem _ he'))
            (by rwa [List.filter_cons_of_neg (by rw [hd]; exact Bool.false_ne_true)] at hn)
      | true =>
          have hfresh : alookup acc e.name = none :=
            hdisj e (List.mem_cons_self _ _) hd
          rw [scanInsertStep_eq hd hfresh]
          rw [List.filter_cons_of_pos hd] at hn ⊢
          rw [List.map_cons, List.nodup_cons] at hn
          cases hi : insertItem e with
          | error err => simp [mapE, hi]
          | ok p =>
              have hp1 : p.1 = e.name := insertItem_ok_name hi
              have hdisj' : ∀ e' ∈ t, e'.isDir = true →
                  alookup (acc ++ [p]) e'.name = none := by
                intro e' he' hd'
                have hne : p.1 ≠ e'.name := by
                  rw [hp1]
                  intro hcontra
                  apply hn.1
                  rw [hcontra]
                  exact List.mem_map_of_mem _ (List.mem_filter.2 ⟨he', hd'⟩)
                have hacc' : alookup acc e'.name = none :=
                  hdisj e' (List.mem_cons_of_mem _ he') hd'
                rw [alookup_append_right_of_none _ _ hacc']
                obtain ⟨p1, p2⟩ := p
                exact alookup_singleton_ne hne p2
              simp only [except_map_ok, ok_bind]
              rw [ih (acc ++ [p]) hdisj' hn.2]
              cases hms : mapE insertItem (t.filter (fun e => e.isDir)) with
              | error err => simp [mapE, hi, hms]
              | ok l => simp [mapE, hi, hms]

lemma scanInsert_spec {t : List Entry}
    (hn : ((t.filter (fun e => e.isDir)).map (fun e => e.name)).Nodup) :
    scanInsert t = mapE insertItem (t.filter (fun e => e.isDir)) := by
  have h := scanInsert_go t [] (fun _ _ _ => rfl) hn
  rw [scanInsert] at *
  rw [h]
  cases hm : mapE insertItem (t.filter (fun e => e.isDir)) with
  | error err => rfl
  | ok l => simp

/-! ### Transport lemmas between related tables -/

lemma forall₂_map_eq {α β γ : Type} {R : α → β → Prop} {f : α → γ} {g : β → γ}
    (hfg : ∀ a b, R a b → f a = g b) :
    ∀ {l : List α} {m : List β}, List.Forall₂ R l m → l.map f = m.map g := by
  intro l m h
  induction h with
  | nil => rfl
  | cons hab _ ih => simp only [List.map_cons, hfg _ _ hab, ih]

lemma forall₂_mem_right {α β : Type} {R : α → β → Prop} :
    ∀ {l : List α} {m : List β}, List.Forall₂ R l m → ∀ {b}, b ∈ m →
      ∃ a ∈ l, R a b := by
  intro l m h
  induction h with
  | nil => intro b hb; cases hb
  | cons hab hF ih =>
      intro b hb
      rcases List.mem_cons.1 hb with rfl | hb'
      · exact ⟨_, List.mem_cons_self _ _, hab⟩
      · rcases ih hb' with ⟨a, ha, har⟩
        exact ⟨a, List.mem_cons_of_mem _ ha, har⟩

lemma forall₂_filter_dirs {l1 l2 : List Entry}
    (h : List.Forall₂ EntryRel l1 l2) :
    List.Forall₂ EntryRel (l1.filter (fun e => e.isDir))
      (l2.filter (fun e => e.isDir)) := by
  induction h with
  | nil => constructor
  | cons hab hF ih =>
      rename_i a b l1' l2'
      obtain ⟨hn, hd, hl, hs⟩ := hab
      cases ha : a.isDir with
      | false =>
          rw [List.filter_cons_of_neg (by rw [ha]; exact Bool.false_ne_true),
            List.filter_cons_of_neg (by rw [← hd, ha]; exact Bool.false_ne_true)]
          exact ih
      | true =>
          rw [List.filter_cons_of_pos ha, List.filter_cons_of_pos (by rw [← hd, ha])]
          exact List.Forall₂.cons ⟨hn, hd, hl, hs⟩ ih

lemma forall₂_and_mem {α β : Type} {R : α → β → Prop} {P : α → Prop} {Q : β → Prop} :
    ∀ {l : List α} {m : List β}, List.Forall₂ R l m → (∀ a ∈ l, P a) →
      (∀ b ∈ m, Q b) → List.Forall₂ (fun a b => R a b ∧ P a ∧ Q b) l m := by
  intro l m h
  induction h with
  | nil => intro _ _; constructor
  | cons hab hF ih =>
      intro hP hQ
      exact List.Forall₂.cons
        ⟨hab, hP _ (List.mem_cons_self _ _), hQ _ (List.mem_cons_self _ _)⟩
        (ih (fun a ha => hP a (List.mem_cons_of_mem _ ha))
          (fun b hb => hQ b (List.mem_cons_of_mem _ hb)))

lemma alookup_forall₂ {κ α β : Type} [DecidableEq κ] (R : α → β → Prop) :
    ∀ {l : List (κ × α)} {m : List (κ × β)},
      List.Forall₂ (fun p q => p.1 = q.1 ∧ R p.2 q.2) l m → ∀ (k : κ),
      (alookup l k = none ∧ alookup m k = none)
      ∨ ∃ x y, alookup l k = some x ∧ alookup m k = some y ∧ R x y := by
  intro l m h
  induction h with
  | nil => intro k; left; exact ⟨rfl, rfl⟩
  | cons hpq hF ih =>
      rename_i p q l' m'
      intro k
      obtain ⟨hk, hR⟩ := hpq
      by_cases hpk : p.1 = k
      · right
        exact ⟨p.2, q.2, by rw [alookup_cons, if_pos hpk],
          by rw [alookup_cons, if_pos (hk ▸ hpk)], hR⟩
      · have hqk : q.1 ≠ k := hk ▸ hpk
        simp only [alookup_cons, if_neg hpk, if_neg hqk]
        exact ih k

lemma filterMap_all_forall₂ {α β : Type} {f : α → Option β} :
    ∀ {l : List α}, (∀ a ∈ l, (f a).isSome) →
      List.Forall₂ (fun a b => f a = some b) l (l.filterMap f) := by
  intro l
  induction l with
  | nil => intro _; constructor
  | cons a l ih =>
      intro hall
      cases hfa : f a with
      | none =>
          have := hall a (List.mem_cons_self _ _)
          rw [hfa] at this
          cases this
      | some b =>
          rw [List.filterMap_cons_some hfa]
          exact List.Forall₂.cons hfa
            (ih (fun a' ha' => hall a' (List.mem_cons_of_mem _ ha')))

lemma numTable_forall₂ {j : JParamTable} {tab : ParamQ}
    (h : numTable j = some tab) :
    List.Forall₂ (fun p q => p.1 = q.1 ∧ numSizes p.2 = some q.2) j tab := by
  unfold numTable at h
  split at h
  case isTrue hall =>
      injection h with h
      rw [← h]
      have hall' : ∀ p ∈ j, ((fun p => (numSizes p.2).map (fun m => (p.1, m))) p).isSome := by
        intro p hp
        have := List.all_eq_true.1 hall p hp
        cases hns : numSizes p.2 with
        | none => rw [hns] at this; cases this
        | some m => simp [hns]
      refine (filterMap_all_forall₂ hall').imp ?_
      intro p q hpq
      cases hns : numSizes p.2 with
      | none => rw [hns] at hpq; cases hpq
      | some m =>
          rw [hns] at hpq
          injection hpq with hpq
          rw [← hpq]
          exact ⟨rfl, rfl⟩
  case isFalse => cases h

lemma numSizes_forall₂ {l : List (Int × Json)} {m : List (Int × ℚ)}
    (h : numSizes l = some m) :
    List.Forall₂ (fun p q => p.1 = q.1 ∧ numVal p.2 = some q.2) l m := by
  unfold numSizes at h
  split at h
  case isTrue hall =>
      injection h with h
      rw [← h]
      have hall' : ∀ p ∈ l, ((fun p => (numVal p.2).map (fun q => (p.1, q))) p).isSome := by
        intro p hp
        have := List.all_eq_true.1 hall p hp
        cases hns : numVal p.2 with
        | none => rw [hns] at this; cases this
        | some q => simp [hns]
      refine (filterMap_all_forall₂ hall').imp ?_
      intro p q hpq
      cases hns : numVal p.2 with
      | none => rw [hns] at hpq; cases hpq
      | some x =>
          rw [hns] at hpq
          injection hpq with hpq
          rw [← hpq]
          exact ⟨rfl, rfl⟩
  case isFalse => cases h

/-- The size keys a scanned implementation carries form a sublist of
the accepted size keys of its sub-entry listing. -/
lemma scanned_sizes_keys_sublist {subs : List SubEntry}
    {os : List (Option (Int × Json))}
    (h : List.Forall₂ (fun s o => scanSizeItem s = .ok o) subs os) :
    ((os.filterMap id).map (fun p => p.1)).Sublist (acceptedSizeKeys subs) := by
  induction h with
  | nil => exact List.Sublist.refl _
  | cons hso hF ih =>
      rename_i s o subs' os'
      cases o with
      | none =>
          rw [List.filterMap_cons_none rfl, acceptedSizeKeys_cons]
          cases (if s.isDir then pyInt s.name else none) with
          | none => exact ih
          | some k => exact ih.cons k
      | some kv =>
          obtain ⟨k, v⟩ := kv
          have hfm : List.filterMap id (some (k, v) :: os') = (k, v) :: List.filterMap id os' := rfl
          rw [hfm, acceptedSizeKeys_cons, scanSizeItem_ok_some hso, List.map_cons]
          exact ih.cons₂ k

/-- Keys of a table scanned from a well-formed listing: exactly the
directory names, hence nodup. -/
lemma scan_keys_eq {t : List Entry} {j : JParamTable}
    (hs : mapE insertItem (t.filter (fun e => e.isDir)) = .ok j) :
    (t.filter (fun e => e.isDir)).map (fun e => e.name) = j.map (fun p => p.1) := by
  apply forall₂_map_eq _ (mapE_ok_forall₂ hs)
  intro a b h
  exact (insertItem_ok_name h).symm

/-- Inner size keys of any value stored in a scanned table are nodup
when the listing is well-formed. -/
lemma scanned_value_keys_nodup {t : List Entry} (hw : WellFormedTree t)
    {j : JParamTable}
    (hs : mapE insertItem (t.filter (fun e => e.isDir)) = .ok j)
    {k : String} {l : List (Int × Json)} (hmem : (k, l) ∈ j) :
    (l.map (fun p => p.1)).Nodup := by
  rcases forall₂_mem_right (mapE_ok_forall₂ hs) hmem with ⟨e, he, hie⟩
  have hsz : scanSizesFrom [] e.subs = .ok l := insertItem_ok_sizes hie
  have hacc : ∀ k' ∈ acceptedSizeKeys e.subs, alookup ([] : List (Int × Json)) k' = none :=
    fun _ _ => rfl
  have hn : (acceptedSizeKeys e.subs).Nodup :=
    hw.2 e (List.mem_of_mem_filter he)
  rw [scanSizesFrom_spec e.subs [] hacc hn] at hsz
  cases hms : mapE scanSizeItem e.subs with
  | error err => rw [hms] at hsz; cases hsz
  | ok os =>
      rw [hms] at hsz
      injection hsz with hsz
      have hsub := scanned_sizes_keys_sublist (mapE_ok_forall₂ hms)
      have : l = os.filterMap id := by
        rw [← hsz]
        simp
      rw [this]
      exact hsub.nodup hn

/-- The per-implementation contributions of two listings of the same
implementation directory: same name, permuted size dicts. -/
lemma insertItem_rel {a b : Entry} (hname : a.name = b.name)
    (hsub : a.subs.Perm b.subs)
    (hna : (acceptedSizeKeys a.subs).Nodup) (hnb : (acceptedSizeKeys b.subs).Nodup)
    {p q : String × List (Int × Json)}
    (hpa : insertItem a = .ok p) (hqb : insertItem b = .ok q) :
    p.1 = q.1 ∧ p.2.Perm q.2 := by
  have hp1 : p.1 = a.name := insertItem_ok_name hpa
  have hq1 : q.1 = b.name := insertItem_ok_name hqb
  have hps : scanSizesFrom [] a.subs = .ok p.2 := insertItem_ok_sizes hpa
  have hqs : scanSizesFrom [] b.subs = .ok q.2 := insertItem_ok_sizes hqb
  rw [scanSizesFrom_spec a.subs [] (fun _ _ => rfl) hna] at hps
  rw [scanSizesFrom_spec b.subs [] (fun _ _ => rfl) hnb] at hqs
  refine ⟨by rw [hp1, hq1, hname], ?_⟩
  cases hma : mapE scanSizeItem a.subs with
  | error err => rw [hma] at hps; cases hps
  | ok osa =>
      rw [hma] at hps
      injection hps with hps
      cases hmb : mapE scanSizeItem b.subs with
      | error err => rw [hmb] at hqs; cases hqs
      | ok osb =>
          rw [hmb] at hqs
          injection hqs with hqs
          rcases mapE_perm_ok hsub hma with ⟨osb', hmb', hosperm⟩
          rw [hmb'] at hmb
          injection hmb with hmb
          have hp2 : p.2 = osa.filterMap id := by rw [← hps]; simp
          have hq2 : q.2 = osb.filterMap id := by rw [← hqs]; simp
          rw [hp2, hq2, ← hmb]
          exact hosperm.filterMap id

/-! ### Summary-layer lemmas -/

lemma summarizeInsert_eq_of {tab1 tab2 : ParamQ}
    (hkeys : (tab1.map (fun p => p.1)).Perm (tab2.map (fun p => p.1)))
    (hlook : ∀ k ∈ tab1.map (fun p => p.1), ∀ sz : Int,
        alookup ((alookup tab1 k).getD []) sz
          = alookup ((alookup tab2 k).getD []) sz) :
    summarizeInsert tab1 = summarizeInsert tab2 := by
  unfold summarizeInsert
  rw [← sortStrs_eq_of_perm hkeys]
  apply List.map_congr_left
  intro k hk
  have hk1 : k ∈ tab1.map (fun p => p.1) := (sortStrs_perm _).subset hk
  dsimp only
  rw [hlook k hk1 100, hlook k hk1 1000]

lemma summaryRows_flat (tab : ParamQ) :
    summaryRows tab = (sortStrs (tab.map (fun p => p.1))).flatMap (fun k =>
      [(k, (100 : Int), (alookup ((alookup tab k).getD []) (100 : Int)).getD 0 / 1000000),
       (k, (1000 : Int), (alookup ((alookup tab k).getD []) (1000 : Int)).getD 0 / 1000000)]) := by
  unfold summaryRows summarizeInsert
  induction sortStrs (tab.map (fun p => p.1)) with
  | nil => rfl
  | cons k ks ih => simp only [List.map_cons, List.flatMap_cons, ih]

lemma rows_pairwise {ks : List String} (hs : ks.Sorted StrLE) (hn : ks.Nodup)
    (f g : String → ℚ) :
    (ks.flatMap (fun k => [(k, (100 : Int), f k), (k, (1000 : Int), g k)])).Pairwise
      RowLE := by
  induction ks with
  | nil => constructor
  | cons k ks ih =>
      rcases List.pairwise_cons.1 hs with ⟨hhead, htail⟩
      rcases List.nodup_cons.1 hn with ⟨hknotin, hntail⟩
      rw [List.flatMap_cons, List.pairwise_append]
      refine ⟨?_, ih htail hntail, ?_⟩
      · constructor
        · intro b hb
          rcases List.mem_singleton.1 hb with rfl
          exact ⟨strLe_refl k, fun _ => by norm_num⟩
        · constructor
          · intro b hb
            cases hb
          · constructor
      · intro a ha b hb
        rcases List.mem_flatMap.1 hb with ⟨k', hk', hbk⟩
        have hb1 : b.1 = k' := by
          rcases List.mem_cons.1 hbk with rfl | hbk'
          · rfl
          · rcases List.mem_singleton.1 hbk' with rfl
            rfl
        have ha1 : a.1 = k := by
          rcases List.mem_cons.1 ha with rfl | ha'
          · rfl
          · rcases List.mem_singleton.1 ha' with rfl
            rfl
        constructor
        · rw [ha1, hb1]
          exact hhead k' hk'
        · intro he
          exfalso
          apply hknotin
          rw [← ha1, he, hb1]
          exact hk'

lemma rows_nodup_pairs {ks : List String} (hn : ks.Nodup) (f g : String → ℚ) :
    ((ks.flatMap (fun k => [(k, (100 : Int), f k), (k, (1000 : Int), g k)])).map
      (fun r => (r.1, r.2.1))).Nodup := by
  induction ks with
  | nil => constructor
  | cons k ks ih =>
      rcases List.nodup_cons.1 hn with ⟨hknotin, hntail⟩
      rw [List.flatMap_cons, List.map_append, List.nodup_append]
      refine ⟨?_, ih hntail, ?_⟩
      · simp
      · intro x hx1 hx2
        have hxk : x.1 = k := by
          simp only [List.map_cons, List.map_nil] at hx1
          rcases List.mem_cons.1 hx1 with rfl | hx1'
          · rfl
          · rcases List.mem_singleton.1 hx1' with rfl
            rfl
        rcases List.mem_map.1 hx2 with ⟨r, hr, rfl⟩
        rcases List.mem_flatMap.1 hr with ⟨k', hk', hrk⟩
        have hr1 : r.1 = k' := by
          rcases List.mem_cons.1 hrk with rfl | hrk'
          · rfl
          · rcases List.mem_singleton.1 hrk' with rfl
            rfl
        apply hknotin
        have : k = k' := by rw [← hxk, hr1]
        rw [this]
        exact hk'

/-- C7: for well-formed result trees, the scan followed by the
summary produces rows sorted by implementation name under the total,
locale-independent ordinal string order, then by size ascending,
with no duplicate (implementation, size) pair; and the output is
identical for any two traversal orders of the same tree. -/
theorem summary_deterministic_sorted (t1 t2 : List Entry) (j1 j2 : JParamTable)
    (tab1 tab2 : ParamQ)
    (hw1 : WellFormedTree t1) (hw2 : WellFormedTree t2) (heq : TreeEquiv t1 t2)
    (h1 : scanInsert t1 = .ok j1) (h2 : scanInsert t2 = .ok j2)
    (hv1 : numTable j1 = some tab1) (hv2 : numTable j2 = some tab2) :
    summaryRows tab1 = summaryRows tab2
    ∧ (summaryRows tab1).Pairwise RowLE
    ∧ ((summaryRows tab1).map (fun r => (r.1, r.2.1))).Nodup := by
  obtain ⟨t', hperm, hF⟩ := heq
  rw [scanInsert_spec hw1.1] at h1
  rw [scanInsert_spec hw2.1] at h2
  have hpf : (t1.filter (fun e => e.isDir)).Perm (t'.filter (fun e => e.isDir)) :=
    hperm.filter _
  obtain ⟨jmid, hsmid, hpj⟩ := mapE_perm_ok hpf h1
  have hFf := forall₂_filter_dirs hF
  have hPa : ∀ e ∈ t'.filter (fun e => e.isDir), (acceptedSizeKeys e.subs).Nodup := by
    intro e he
    exact hw1.2 e (hperm.symm.subset (List.mem_of_mem_filter he))
  have hPb : ∀ e ∈ t2.filter (fun e => e.isDir), (acceptedSizeKeys e.subs).Nodup := by
    intro e he
    exact hw2.2 e (List.mem_of_mem_filter he)
  have hFr := forall₂_and_mem hFf hPa hPb
  have hS : List.Forall₂ (fun p q => p.1 = q.1 ∧ p.2.Perm q.2) jmid j2 := by
    refine mapE_forall₂ ?_ hFr hsmid h2
    intro a b x y hrel hx hy
    obtain ⟨⟨hn, hd, hl, hsub⟩, hna, hnb⟩ := hrel
    exact insertItem_rel hn hsub hna hnb hx hy
  have hk1eq := scan_keys_eq h1
  have hk2eq := scan_keys_eq h2
  have hn1keys : (j1.map (fun p => p.1)).Nodup := hk1eq ▸ hw1.1
  have hn2keys : (j2.map (fun p => p.1)).Nodup := hk2eq ▸ hw2.1
  have hpjkeys : (j1.map (fun p => p.1)).Perm (jmid.map (fun p => p.1)) := hpj.map _
  have hmideq : jmid.map (fun p => p.1) = j2.map (fun p => p.1) := by
    apply forall₂_map_eq _ hS
    intro a b h
    exact h.1
  have hN1 := numTable_forall₂ hv1
  have hN2 := numTable_forall₂ hv2
  have htab1keys : j1.map (fun p => p.1) = tab1.map (fun p => p.1) := by
    apply forall₂_map_eq _ hN1
    intro a b h
    exact h.1
  have htab2keys : j2.map (fun p => p.1) = tab2.map (fun p => p.1) := by
    apply forall₂_map_eq _ hN2
    intro a b h
    exact h.1
  have hkeysperm : (tab1.map (fun p => p.1)).Perm (tab2.map (fun p => p.1)) := by
    rw [← htab1keys, ← htab2keys, ← hmideq]
    exact hpjkeys
  have htab1nodup : (tab1.map (fun p => p.1)).Nodup := htab1keys ▸ hn1keys
  have hlook : ∀ k ∈ tab1.map (fun p => p.1), ∀ sz : Int,
      alookup ((alookup tab1 k).getD []) sz
        = alookup ((alookup tab2 k).getD []) sz := by
    intro k hk sz
    obtain ⟨m1, hm1⟩ := alookup_some_of_mem_keys hk
    rcases alookup_forall₂ (fun x y => numSizes x = some y) hN1 k with ⟨hj1n, htab1n⟩ | ⟨l1, m1', hj1s, htab1s, hrel1⟩
    · rw [hm1] at htab1n
      cases htab1n
    · rw [hm1] at htab1s
      injection htab1s with hmeq
      subst hmeq
      have hjmid : alookup jmid k = some l1 := by
        rw [← alookup_perm hpj hn1keys k]
        exact hj1s
      rcases alookup_forall₂ (fun x y : List (Int × Json) => x.Perm y) hS k with ⟨hjmn, hj2n⟩ | ⟨l1', l2, hjms, hj2s, hperm12⟩
      · rw [hjmid] at hjmn
        cases hjmn
      · rw [hjmid] at hjms
        injection hjms with hleq
        subst hleq
        rcases alookup_forall₂ (fun x y => numSizes x = some y) hN2 k with ⟨hj2n', htab2n⟩ | ⟨l2', m2, hj2s', htab2s, hrel2⟩
        · rw [hj2s] at hj2n'
          cases hj2n'
        · rw [hj2s] at hj2s'
          injection hj2s' with hleq2
          subst hleq2
          rw [hm1, htab2s]
          simp only [Option.getD_some]
          have hl1mem : (k, l1) ∈ j1 := alookup_mem hj1s
          have hl1nodup : (l1.map (fun p => p.1)).Nodup :=
            scanned_value_keys_nodup hw1 h1 hl1mem
          have hinner : alookup l1 sz = alookup l2 sz :=
            alookup_perm hperm12 hl1nodup sz
          have hN1i := numSizes_forall₂ hrel1
          have hN2i := numSizes_forall₂ hrel2
          rcases alookup_forall₂ (fun x y => numVal x = some y) hN1i sz with ⟨hL1n, hM1n⟩ | ⟨x1, y1, hL1s, hM1s, hval1⟩
          · rcases alookup_forall₂ (fun x y => numVal x = some y) hN2i sz with ⟨hL2n, hM2n⟩ | ⟨x2, y2, hL2s, hM2s, hval2⟩
            · rw [hM1n, hM2n]
            · rw [hinner, hL2s] at hL1n
              cases hL1n
          · rcases alookup_forall₂ (fun x y => numVal x = some y) hN2i sz with ⟨hL2n, hM2n⟩ | ⟨x2, y2, hL2s, hM2s, hval2⟩
            · rw [hinner, hL2n] at hL1s
              cases hL1s
            · rw [hM1s, hM2s]
              rw [hinner, hL2s] at hL1s
              injection hL1s with hx
              subst hx
              rw [hval1] at hval2
              injection hval2 with hy
              rw [hy]
  have hsum : summarizeInsert tab1 = summarizeInsert tab2 :=
    summarizeInsert_eq_of hkeysperm hlook
  refine ⟨?_, ?_, ?_⟩
  · unfold summaryRows
    rw [hsum]
  · rw [summaryRows_flat]
    exact rows_pairwise (sortStrs_sorted _)
      ((sortStrs_perm _).nodup_iff.2 htab1nodup) _ _
  · rw [summaryRows_flat]
    exact rows_nodup_pairs ((sortStrs_perm _).nodup_iff.2 htab1nodup) _ _

/-- C7 witness: the theorem applied to a concrete two-implementation
tree listed in two different orders. -/
theorem summary_deterministic_sorted_witness :
    summaryRows [("b", [((100 : Int), (7 : ℚ))]), ("a", [])]
      = summaryRows [("a", []), ("b", [((100 : Int), (7 : ℚ))])]
    ∧ (summaryRows [("b", [((100 : Int), (7 : ℚ))]), ("a", [])]).Pairwise RowLE
    ∧ ((summaryRows [("b", [((100 : Int), (7 : ℚ))]), ("a", [])]).map
        (fun r => (r.1, r.2.1))).Nodup := by
  refine summary_deterministic_sorted
    [⟨"b", true, EstFile.absent,
        [⟨"100", true, EstFile.parsed (.jobj [("mean", .jobj [("point_estimate", .jnum 7)])])⟩]⟩,
     ⟨"a", true, EstFile.absent, []⟩]
    [⟨"a", true, EstFile.absent, []⟩,
     ⟨"b", true, EstFile.absent,
        [⟨"100", true, EstFile.parsed (.jobj [("mean", .jobj [("point_estimate", .jnum 7)])])⟩]⟩]
    _ _ _ _ ⟨by decide, by decide⟩ ⟨by decide, by decide⟩ ⟨_, List.Perm.swap _ _ _, ?_⟩ rfl rfl rfl rfl
  exact List.Forall₂.cons ⟨rfl, rfl, rfl, List.Perm.refl _⟩
    (List.Forall₂.cons ⟨rfl, rfl, rfl, List.Perm.refl _⟩ List.Forall₂.nil)
